import Mathlib

/-!
Verification development for the `ai-zsh` terminal proxy
(`ai_terminal.py`).  The Python source is shallowly embedded: strings
are modelled as `List Char`, byte streams as `List Nat`, fallible
Python code (exceptions such as `IndexError`) as `Except PyErr`,
and the event-loop side effects of `main` as an explicit trace of
events driven by a finite script of read results.
-/

namespace AiZsh

/-! ## Basic Python-style string utilities over `List Char` -/

/-- The set of characters matched by Python's `\s` regex class on `str`
(and stripped by `str.strip()`): ASCII whitespace, the C1/Unicode
whitespace code points. -/
def isPySpace (c : Char) : Bool :=
  c = ' ' || c = '\t' || c = '\n' || c = '\r' || c = '\x0b' || c = '\x0c' ||
  (0x1c ≤ c.toNat && c.toNat ≤ 0x1f) ||
  c.toNat = 0x85 || c.toNat = 0xa0 || c.toNat = 0x1680 ||
  (0x2000 ≤ c.toNat && c.toNat ≤ 0x200a) ||
  c.toNat = 0x2028 || c.toNat = 0x2029 || c.toNat = 0x202f ||
  c.toNat = 0x205f || c.toNat = 0x3000

/-- Python `str.lstrip()` (whitespace variant). -/
def pyLstrip (s : List Char) : List Char := s.dropWhile isPySpace

/-- Python `str.rstrip()` (whitespace variant). -/
def pyRstrip (s : List Char) : List Char := (s.reverse.dropWhile isPySpace).reverse

/-- Python `str.strip()` (whitespace variant). -/
def pyStrip (s : List Char) : List Char := pyRstrip (pyLstrip s)

/-- Python `str.isspace()`: non-empty and all whitespace. -/
def pyIsspace (s : List Char) : Bool := !s.isEmpty && s.all isPySpace

/-- ASCII-only `str.lower()` on a single character (sufficient for the
inputs handled by the classifier and the conversation loop). -/
def asciiLower (c : Char) : Char :=
  if 'A' ≤ c && c ≤ 'Z' then Char.ofNat (c.toNat + 32) else c

/-- Python `str.lower()` restricted to ASCII case mapping. -/
def pyLower (s : List Char) : List Char := s.map asciiLower

/-- Does `pat` occur as a contiguous substring of `s`
(Python's `pat in s` / `s.find(pat) >= 0`)? -/
def containsSub (s pat : List Char) : Bool :=
  (List.range (s.length + 1)).any (fun i => pat.isPrefixOf (s.drop i))

/-- Python `s.find(pat)`: index of first occurrence, `-1` when absent. -/
def pyFind (s pat : List Char) : Int :=
  match (List.range (s.length + 1)).find? (fun i => pat.isPrefixOf (s.drop i)) with
  | some i => (i : Int)
  | none => -1

/-- Python slice `s[a:b]` with negative-index normalisation and clamping. -/
def pySlice (s : List Char) (a b : Int) : List Char :=
  let n : Int := s.length
  let norm : Int → Nat := fun i =>
    if i < 0 then (max (n + i) 0).toNat else (min i n).toNat
  let lo := norm a
  let hi := norm b
  (s.take hi).drop lo

/-- Python `s.split(sep)` for a single-character separator: splits at every
occurrence, keeping empty fields (`"".split(c) = [""]`). -/
def pySplitChar (s : List Char) (sep : Char) : List (List Char) :=
  match s with
  | [] => [[]]
  | c :: rest =>
    let r := pySplitChar rest sep
    if c = sep then [] :: r
    else match r with
      | [] => [[c]]
      | f :: fs => (c :: f) :: fs

/-- Python list/str indexing `l[i]` for non-negative `i`:
out of range raises `IndexError`. -/
inductive PyErr where
  | indexError
  | serviceError
  | eofError
  deriving DecidableEq, Repr

def pyGet (l : List (List Char)) (i : Nat) : Except PyErr (List Char) :=
  match l.get? i with
  | some x => Except.ok x
  | none => Except.error PyErr.indexError

/-! ## Bounded history (`history` / `add_to_history`, lines 14-15, 192-195)

```python
history = []
MAX_HISTORY_SIZE = 100

def add_to_history(command):
    history.append(command)
    if len(history) > MAX_HISTORY_SIZE:
        history.pop(0)
```
-/

def MAX_HISTORY_SIZE : Nat := 100

def add_to_history {α : Type} (history : List α) (command : α) : List α :=
  let h := history ++ [command]
  if MAX_HISTORY_SIZE < h.length then h.tail else h

/-- Inserting a whole sequence of records starting from the empty history. -/
def historyOf {α : Type} (l : List α) : List α := l.foldl add_to_history []

theorem add_to_history_eq {α : Type} (h : List α) (c : α) :
    add_to_history h c =
      if h.length < MAX_HISTORY_SIZE then h ++ [c] else h.tail ++ [c] := by
  unfold add_to_history
  by_cases hl : h.length < MAX_HISTORY_SIZE
  · simp only [List.length_append, List.length_singleton]
    rw [if_neg (by omega), if_pos hl]
  · simp only [List.length_append, List.length_singleton]
    rw [if_pos (by omega), if_neg hl]
    rcases h with _ | ⟨a, h⟩
    · simp [MAX_HISTORY_SIZE] at hl
    · simp

theorem historyOf_eq_drop {α : Type} (l : List α) :
    historyOf l = l.drop (l.length - MAX_HISTORY_SIZE) := by
  induction l using List.reverseRecOn with
  | nil => simp [historyOf]
  | append_singleton l c ih =>
    have step : historyOf (l ++ [c]) = add_to_history (historyOf l) c := by
      simp [historyOf]
    rw [step, ih, add_to_history_eq]
    have hdl : (l.drop (l.length - MAX_HISTORY_SIZE)).length =
        l.length - (l.length - MAX_HISTORY_SIZE) := List.length_drop _ _
    by_cases hl : l.length < MAX_HISTORY_SIZE
    · have h0 : l.length - MAX_HISTORY_SIZE = 0 := by omega
      have h1 : (l ++ [c]).length - MAX_HISTORY_SIZE = 0 := by
        simp only [List.length_append, List.length_singleton]; omega
      rw [if_pos (by rw [hdl, h0]; omega), h0, h1]
      simp
    · have hM : MAX_HISTORY_SIZE ≤ l.length := Nat.le_of_not_lt hl
      have hM100 : MAX_HISTORY_SIZE = 100 := rfl
      rw [if_neg (by rw [hdl]; omega)]
      rw [List.tail_drop, List.drop_append_of_le_length
        (by simp only [List.length_append, List.length_singleton]; omega)]
      congr 2
      simp only [List.length_append, List.length_singleton]
      omega

theorem historyOf_length_le {α : Type} (l : List α) :
    (historyOf l).length ≤ MAX_HISTORY_SIZE := by
  rw [historyOf_eq_drop, List.length_drop]
  omega


/-- C2: the history written through `add_to_history` never exceeds the
fixed capacity `MAX_HISTORY_SIZE = 100`, and insertion is FIFO: after
inserting 101 records into an initially empty history, the oldest record
has been evicted and the history holds exactly the most recent 100
records in their original relative order (the tail of the insertion
sequence). -/
theorem C2_history_capacity_fifo {α : Type} (l : List α) :
    (historyOf l).length ≤ MAX_HISTORY_SIZE ∧
    (l.length = 101 → historyOf l = l.tail) := by
  refine ⟨historyOf_length_le l, fun h => ?_⟩
  rw [historyOf_eq_drop, h]
  have : (101 : Nat) - MAX_HISTORY_SIZE = 1 := rfl
  rw [this, List.drop_one]

/-- C2 (witness): the capacity/FIFO theorem applied to the concrete
101-element insertion sequence `0, 1, ..., 100`. -/
theorem C2_witness :
    (List.range 101).length = 101 ∧
    historyOf (List.range 101) = (List.range 101).tail :=
  ⟨by simp, (C2_history_capacity_fifo (List.range 101)).2 (by simp)⟩

/-! ## The classifier `is_ai_command` (lines 21-47)

```python
pattern = re.compile(r'^ai(?:\s+(.+))?$')
if not (command == 'ai' or command.startswith('ai ')):
    return (False, '')
match = pattern.match(command)
if match:
    prompt = match.group(1) or ''
    return (True, prompt.strip())
return (False, '')
```

The regex is modelled operationally: after the literal `ai`, the
optional group is tried first (`\s+` greedy with backtracking, then
`(.+)` greedy, then `$`); if it fails, the group is skipped and `$`
must match directly.  `$` matches at the end of the string or just
before one final newline; `.` matches any character except newline. -/

/-- Greedy `(.+)$` on `rest`: the longest non-empty newline-free prefix
after which `$` holds.  Returns the captured text. -/
def dotPlusDollar (rest : List Char) : Option (List Char) :=
  let core := rest.takeWhile (fun c => c ≠ '\n')
  let t := rest.drop core.length
  if core.isEmpty then none
  else if t.isEmpty then some core
  else if t = ['\n'] then some core
  else none

/-- `\s+(.+)$` on `t`, backtracking the greedy `\s+` from `k` characters
down to 1.  Returns the text captured by `(.+)`. -/
def aiTailMatch : Nat → List Char → Option (List Char)
  | 0, _ => none
  | k + 1, t =>
    match dotPlusDollar (t.drop (k + 1)) with
    | some g => some g
    | none => aiTailMatch k t

/-- `re.match(r'^ai(?:\s+(.+))?$', s)`: `some (some g)` when the group
captured `g`, `some none` when the match succeeded with the group
unused, `none` when there is no match. -/
def ai_pattern_match (s : List Char) : Option (Option (List Char)) :=
  match s with
  | 'a' :: 'i' :: t =>
    match aiTailMatch (t.takeWhile isPySpace).length t with
    | some g => some (some g)
    | none => if t.isEmpty || t = ['\n'] then some none else none
  | _ => none

/-- `is_ai_command` (lines 21-47). -/
def is_ai_command (command : List Char) : Bool × List Char :=
  if ¬(command = ['a', 'i'] ∨ ['a', 'i', ' '].isPrefixOf command) then (false, [])
  else
    match ai_pattern_match command with
    | some g => (true, pyStrip (g.getD []))
    | none => (false, [])

theorem dotPlusDollar_no_nl (rest : List Char) (hnl : '\n' ∉ rest) :
    dotPlusDollar rest = if rest.isEmpty then none else some rest := by
  unfold dotPlusDollar
  have hcore : rest.takeWhile (fun c => c ≠ '\n') = rest := by
    rw [List.takeWhile_eq_self_iff]
    intro x hx
    simp only [ne_eq, decide_eq_true_eq]
    intro hc
    exact hnl (hc ▸ hx)
  simp only [hcore, List.drop_length]
  rcases rest with _ | ⟨c, r⟩
  · simp
  · simp

theorem aiTailMatch_no_nl_some (t : List Char) (hnl : '\n' ∉ t) :
    ∀ k, 1 ≤ k → 2 ≤ t.length →
      ∃ j, 1 ≤ j ∧ j ≤ k ∧ j < t.length ∧ aiTailMatch k t = some (t.drop j) := by
  intro k
  induction k with
  | zero => omega
  | succ k ih =>
    intro _ hlen
    by_cases hk : k + 1 < t.length
    · refine ⟨k + 1, by omega, le_refl _, hk, ?_⟩
      unfold aiTailMatch
      have hd : '\n' ∉ t.drop (k + 1) := fun h => hnl (List.mem_of_mem_drop h)
      rw [dotPlusDollar_no_nl _ hd]
      have : ¬(t.drop (k + 1)).isEmpty := by
        simp only [List.isEmpty_iff, ← List.length_eq_zero, List.length_drop]
        omega
      rw [if_neg this]
    · by_cases hk1 : 1 ≤ k
      · obtain ⟨j, hj1, hj2, hj3, hj4⟩ := ih hk1 hlen
        refine ⟨j, hj1, by omega, hj3, ?_⟩
        unfold aiTailMatch
        have hd : '\n' ∉ t.drop (k + 1) := fun h => hnl (List.mem_of_mem_drop h)
        rw [dotPlusDollar_no_nl _ hd]
        have : (t.drop (k + 1)).isEmpty := by
          simp only [List.isEmpty_iff, ← List.length_eq_zero, List.length_drop]
          omega
        rw [if_pos this]
        exact hj4
      · omega

theorem aiTailMatch_short (t : List Char) (hnl : '\n' ∉ t) (hlen : t.length ≤ 1) :
    ∀ k, aiTailMatch k t = none := by
  intro k
  induction k with
  | zero => rfl
  | succ k ih =>
    unfold aiTailMatch
    have hd : '\n' ∉ t.drop (k + 1) := fun h => hnl (List.mem_of_mem_drop h)
    rw [dotPlusDollar_no_nl _ hd]
    have : (t.drop (k + 1)).isEmpty := by
      simp only [List.isEmpty_iff, ← List.length_eq_zero, List.length_drop]
      omega
    rw [if_pos this]
    exact ih

theorem pyLstrip_drop_of_ws (t : List Char) :
    ∀ j, (∀ x ∈ t.take j, isPySpace x = true) → pyLstrip (t.drop j) = pyLstrip t := by
  induction t with
  | nil => intro j _; simp
  | cons c t ih =>
    intro j hws
    rcases j with _ | j
    · simp
    · have hc : isPySpace c = true := hws c (by simp)
      have ht : ∀ x ∈ t.take j, isPySpace x = true := by
        intro x hx
        exact hws x (by simp [hx])
      have : pyLstrip (c :: t) = pyLstrip t := by
        unfold pyLstrip
        rw [List.dropWhile_cons, if_pos hc]
      rw [List.drop_succ_cons, this, ih j ht]

theorem pyStrip_drop_of_ws (t : List Char) (j : Nat)
    (h : ∀ x ∈ t.take j, isPySpace x = true) : pyStrip (t.drop j) = pyStrip t := by
  unfold pyStrip
  rw [pyLstrip_drop_of_ws t j h]

/-- Elements of the take of a whitespace run are whitespace. -/
theorem take_of_takeWhile_ws (t : List Char) (j : Nat)
    (hj : j ≤ (t.takeWhile isPySpace).length) :
    ∀ x ∈ t.take j, isPySpace x = true := by
  induction t generalizing j with
  | nil => intro x hx; simp at hx
  | cons c t ih =>
    intro x hx
    rcases j with _ | j
    · simp at hx
    · rw [List.takeWhile_cons] at hj
      by_cases hc : isPySpace c
      · rw [if_pos hc] at hj
        simp only [List.length_cons] at hj
        rw [List.take_succ_cons] at hx
        rcases List.mem_cons.mp hx with h | h
        · exact h ▸ hc
        · exact ih j (by omega) x h
      · rw [if_neg hc] at hj
        simp at hj

/-! ## Regex substitution on character-class runs

`re.sub` with a pattern of the shape `[class]+` and a fixed replacement
replaces every maximal run of class characters by the replacement.
`subRunAux` scans left to right; the flag records whether the scanner is
inside a run whose replacement has already been emitted. -/

def subRunAux (p : Char → Bool) (rep : Char) : Bool → List Char → List Char
  | _, [] => []
  | inRun, c :: cs =>
    if p c then
      if inRun then subRunAux p rep true cs
      else rep :: subRunAux p rep true cs
    else c :: subRunAux p rep false cs

/-- `re.sub(r'[class]+', rep, s)` for a single-character replacement. -/
def subRun (p : Char → Bool) (rep : Char) (s : List Char) : List Char :=
  subRunAux p rep false s

/-! ## ANSI escape stripping

The cleaner compiles the pattern ESC followed by either a single final
byte in ranges `@` to `Z` or backslash to underscore (two-character
escapes), or `[`, then parameter bytes `0` to `?`, then intermediate
bytes space to slash, then one final byte `@` to `~` (CSI sequences),
and substitutes the empty string: at each position, a matching sequence
is removed whole; otherwise the character is kept and scanning resumes
at the next position. -/

def isAnsiShortFinal (c : Char) : Bool :=
  (0x40 ≤ c.toNat && c.toNat ≤ 0x5a) || (0x5c ≤ c.toNat && c.toNat ≤ 0x5f)

def isCsiParam (c : Char) : Bool := 0x30 ≤ c.toNat && c.toNat ≤ 0x3f

def isCsiInter (c : Char) : Bool := 0x20 ≤ c.toNat && c.toNat ≤ 0x2f

def isCsiFinal (c : Char) : Bool := 0x40 ≤ c.toNat && c.toNat ≤ 0x7e

/-- Final-byte step of a CSI sequence. -/
def csiTail : List Char → Option (List Char)
  | [] => none
  | f :: r3 => if isCsiFinal f then some r3 else none

/-- Try to match the ANSI pattern right after an ESC character; on success
return the remaining input after the matched sequence. -/
def ansiMatch : List Char → Option (List Char)
  | [] => none
  | c :: rest =>
    if isAnsiShortFinal c then some rest
    else if c = '[' then
      csiTail ((rest.dropWhile isCsiParam).dropWhile isCsiInter)
    else none

theorem dropWhile_len_le (p : Char → Bool) (l : List Char) :
    (l.dropWhile p).length ≤ l.length := by
  induction l with
  | nil => simp
  | cons a l ih =>
    rw [List.dropWhile_cons]
    by_cases hp : p a
    · rw [if_pos hp]
      simp
      omega
    · rw [if_neg hp]

theorem csiTail_length_le :
    ∀ {l rest : List Char}, csiTail l = some rest → rest.length < l.length := by
  intro l rest h
  match l with
  | [] => simp [csiTail] at h
  | f :: r3 =>
    simp only [csiTail] at h
    by_cases h3 : isCsiFinal f
    · rw [if_pos h3] at h
      cases h
      simp
    · rw [if_neg h3] at h
      simp at h

theorem ansiMatch_length_le :
    ∀ {cs rest : List Char}, ansiMatch cs = some rest → rest.length ≤ cs.length := by
  intro cs rest h
  match cs with
  | [] => simp [ansiMatch] at h
  | c :: cs' =>
    simp only [ansiMatch] at h
    by_cases h1 : isAnsiShortFinal c
    · rw [if_pos h1] at h
      cases h
      simp
    · rw [if_neg h1] at h
      by_cases h2 : c = '['
      · rw [if_pos h2] at h
        have d1 : (cs'.dropWhile isCsiParam).length ≤ cs'.length :=
          dropWhile_len_le _ _
        have d2 : ((cs'.dropWhile isCsiParam).dropWhile isCsiInter).length ≤
            (cs'.dropWhile isCsiParam).length := dropWhile_len_le _ _
        have d3 := csiTail_length_le h
        simp only [List.length_cons]
        omega
      · rw [if_neg h2] at h
        simp at h

/-- `ansi_escape.sub('', s)`, driven by a fuel argument so that the
definition is structurally recursive and evaluates inside the kernel.
Every step consumes at least one input character
(`ansiMatch_length_le`), so fuel equal to the input length is exhaustive
and the `0` fallback is unreachable from `ansiSub`. -/
def ansiSubFuel : Nat → List Char → List Char
  | 0, s => s
  | _ + 1, [] => []
  | fuel + 1, c :: cs =>
    if c = '\x1b' then
      match ansiMatch cs with
      | some rest => ansiSubFuel fuel rest
      | none => c :: ansiSubFuel fuel cs
    else c :: ansiSubFuel fuel cs

def ansiSub (s : List Char) : List Char := ansiSubFuel s.length s

/-- The class of `control_chars = re.compile(r'[\x00-\x1F\x7F-\x9F\r\n\x07>]+')`:
C0 controls, DEL and C1 controls, and the printable character `>`. -/
def isCtrlClass (c : Char) : Bool :=
  c.toNat ≤ 0x1f || (0x7f ≤ c.toNat && c.toNat ≤ 0x9f) || c = '>'

/-- `clean_terminal_output` (lines 201-223):
strip ANSI escapes, replace control-class runs by a space, collapse
whitespace runs to a single space, and strip the ends. -/
def clean_terminal_output (raw_output : List Char) : List Char :=
  let s1 := ansiSub raw_output
  let s2 := subRun isCtrlClass ' ' s1
  let s3 := subRun isPySpace ' ' s2
  pyStrip s3

/-! ### Properties of run substitution used by the cleaner claims -/

theorem subRunAux_mem {p : Char → Bool} {rep : Char} :
    ∀ {b : Bool} {s : List Char} {c : Char},
      c ∈ subRunAux p rep b s → c = rep ∨ (c ∈ s ∧ p c = false) := by
  intro b s
  induction s generalizing b with
  | nil => intro c h; simp [subRunAux] at h
  | cons a s ih =>
    intro c h
    simp only [subRunAux] at h
    by_cases hp : p a
    · rw [if_pos hp] at h
      cases b with
      | true =>
        rcases ih h with h' | ⟨h1, h2⟩
        · exact Or.inl h'
        · exact Or.inr ⟨List.mem_cons_of_mem _ h1, h2⟩
      | false =>
        replace h : c ∈ rep :: subRunAux p rep true s := h
        rcases List.mem_cons.mp h with h | h
        · exact Or.inl h
        · rcases ih h with h' | ⟨h1, h2⟩
          · exact Or.inl h'
          · exact Or.inr ⟨List.mem_cons_of_mem _ h1, h2⟩
    · rw [if_neg hp] at h
      simp only [List.mem_cons] at h
      rcases h with h | h
      · subst h
        exact Or.inr ⟨List.mem_cons_self _ _, by simpa using hp⟩
      · rcases ih h with h' | ⟨h1, h2⟩
        · exact Or.inl h'
        · exact Or.inr ⟨List.mem_cons_of_mem _ h1, h2⟩

/-- After replacing whitespace runs by a single space, no two adjacent
characters are both whitespace.  Stated via `List.Chain'`. -/
def noTwoWs (s : List Char) : Prop :=
  List.Chain' (fun a b => ¬(isPySpace a ∧ isPySpace b)) s

theorem subRunAux_true_head {p : Char → Bool} {rep : Char} :
    ∀ {s : List Char} {c : Char} {t : List Char},
      subRunAux p rep true s = c :: t → p c = false := by
  intro s
  induction s with
  | nil => intro c t h; simp [subRunAux] at h
  | cons a s ih =>
    intro c t h
    simp only [subRunAux] at h
    by_cases hp : p a
    · rw [if_pos hp] at h
      exact ih h
    · rw [if_neg hp] at h
      cases h
      simpa using hp

theorem subRunAux_true_head? {p : Char → Bool} {rep : Char} {s : List Char} {c : Char}
    (h : (subRunAux p rep true s).head? = some c) : p c = false := by
  rcases hs : subRunAux p rep true s with _ | ⟨a, t⟩
  · rw [hs] at h; simp at h
  · rw [hs] at h
    simp only [List.head?_cons, Option.some_inj] at h
    subst h
    exact subRunAux_true_head hs

/-- Maximal-run substitution never produces two adjacent characters of the
class when the replacement itself is a single class character. -/
theorem subRunAux_chain {p : Char → Bool} {rep : Char} :
    ∀ (s : List Char) (b : Bool),
      List.Chain' (fun a c => ¬(p a = true ∧ p c = true)) (subRunAux p rep b s) := by
  intro s
  induction s with
  | nil => intro b; simp [subRunAux]
  | cons a s ih =>
    intro b
    simp only [subRunAux]
    by_cases hp : p a
    · rw [if_pos hp]
      cases b with
      | true => exact ih true
      | false =>
        simp only [Bool.false_eq_true, if_false]
        rw [List.chain'_cons']
        refine ⟨?_, ih true⟩
        intro y hy
        have := subRunAux_true_head? hy
        intro hcontra
        rw [this] at hcontra
        exact Bool.false_ne_true hcontra.2
    · rw [if_neg hp]
      rw [List.chain'_cons']
      refine ⟨?_, ih false⟩
      intro y _hy hcontra
      exact hp hcontra.1

theorem head?_dropWhile {p : Char → Bool} {l : List Char} {c : Char}
    (h : (l.dropWhile p).head? = some c) : p c = false := by
  induction l with
  | nil => simp [List.dropWhile] at h
  | cons a l ih =>
    rw [List.dropWhile_cons] at h
    by_cases hp : p a
    · rw [if_pos hp] at h
      exact ih h
    · rw [if_neg hp] at h
      simp only [List.head?_cons, Option.some_inj] at h
      subst h
      simpa using hp

theorem isPrefix_head? {α : Type} {l₁ l₂ : List α} {c : α}
    (hp : l₁ <+: l₂) (h : l₁.head? = some c) : l₂.head? = some c := by
  obtain ⟨t, rfl⟩ := hp
  cases l₁ with
  | nil => simp at h
  | cons a l => simpa using h

/-- `pyRstrip` is a prefix of its argument. -/
theorem pyRstrip_prefixOf (s : List Char) : pyRstrip s <+: s := by
  have h := List.reverse_prefix.mpr
    (List.dropWhile_suffix isPySpace : List.dropWhile isPySpace s.reverse <:+ s.reverse)
  rw [List.reverse_reverse] at h
  exact h

/-- `pyStrip` result is an infix of the argument. -/
theorem pyStrip_infixOf (s : List Char) : pyStrip s <:+: s := by
  unfold pyStrip
  have h1 : pyRstrip (pyLstrip s) <+: pyLstrip s := pyRstrip_prefixOf _
  have h2 : pyLstrip s <:+ s := List.dropWhile_suffix _
  exact h1.isInfix.trans h2.isInfix

theorem pyStrip_head? {s : List Char} {c : Char}
    (h : (pyStrip s).head? = some c) : isPySpace c = false := by
  unfold pyStrip at h
  have := isPrefix_head? (pyRstrip_prefixOf (pyLstrip s)) h
  exact head?_dropWhile this

theorem pyStrip_getLast? {s : List Char} {c : Char}
    (h : (pyStrip s).getLast? = some c) : isPySpace c = false := by
  unfold pyStrip pyRstrip at h
  rw [List.getLast?_reverse] at h
  exact head?_dropWhile h

/-- Membership in the strip result implies membership in the argument. -/
theorem pyStrip_mem {s : List Char} {c : Char} (h : c ∈ pyStrip s) : c ∈ s :=
  (pyStrip_infixOf s).subset h

/-- C10 helper: every character of the cleaned output is a space or a
character of the input that is outside the control class. -/
theorem clean_mem {s : List Char} {c : Char} (h : c ∈ clean_terminal_output s) :
    c = ' ' ∨ isCtrlClass c = false := by
  unfold clean_terminal_output at h
  have h3 := pyStrip_mem h
  rcases subRunAux_mem h3 with h' | ⟨h4, _⟩
  · exact Or.inl h'
  · rcases subRunAux_mem h4 with h' | ⟨_, h5⟩
    · exact Or.inl h'
    · exact Or.inr h5

/-- C10: for every input string, `clean_terminal_output` returns a string
with no `>` character (the printable `>` is deleted along with control
characters, so output containing `>` is altered, e.g. `a>b` becomes
`a b`), no character in the ranges `00`-`1F` and `7F`-`9F`, no two
consecutive spaces, and no leading or trailing whitespace. -/
theorem C10_clean_terminal_output_properties (s : List Char) :
    '>' ∉ clean_terminal_output s ∧
    (∀ c ∈ clean_terminal_output s,
      0x20 ≤ c.toNat ∧ ¬(0x7f ≤ c.toNat ∧ c.toNat ≤ 0x9f)) ∧
    List.Chain' (fun a b => ¬(a = ' ' ∧ b = ' ')) (clean_terminal_output s) ∧
    (∀ c, (clean_terminal_output s).head? = some c → isPySpace c = false) ∧
    (∀ c, (clean_terminal_output s).getLast? = some c → isPySpace c = false) ∧
    clean_terminal_output ('a' :: '>' :: 'b' :: []) = ('a' :: ' ' :: 'b' :: []) := by
  refine ⟨?_, ?_, ?_, ?_, ?_, ?_⟩
  · intro hmem
    rcases clean_mem hmem with h | h
    · exact absurd h (by decide)
    · exact absurd h (by simp [isCtrlClass])
  · intro c hmem
    rcases clean_mem hmem with h | h
    · subst h
      refine ⟨by decide, by decide⟩
    · simp only [isCtrlClass, Bool.or_eq_false_iff, decide_eq_false_iff_not,
        Bool.and_eq_false_iff] at h
      obtain ⟨⟨h1, h2⟩, _⟩ := h
      constructor
      · omega
      · intro ⟨h3, h4⟩
        rcases h2 with h2 | h2
        · simp [decide_eq_false_iff_not] at h2
          omega
        · simp [decide_eq_false_iff_not] at h2
          omega
  · have hchain := @subRunAux_chain isPySpace ' '
      (subRun isCtrlClass ' ' (ansiSub s)) false
    have hinf := pyStrip_infixOf (subRun isPySpace ' ' (subRun isCtrlClass ' ' (ansiSub s)))
    have := hchain.infix hinf
    refine List.Chain'.imp ?_ this
    intro a b hab ⟨ha, hb⟩
    subst ha hb
    exact hab ⟨by decide, by decide⟩
  · intro c h
    exact pyStrip_head? h
  · intro c h
    exact pyStrip_getLast? h
  · decide

/-- C5 (amended): `is_ai_command` classifies a newline-free input as a
meta-command iff it is exactly `ai`, or it begins with `ai ` and has at
least one character after that prefix; the returned prompt is the text
after the leading `ai` with surrounding whitespace stripped.  The exact
three-character input `ai ` is NOT classified as a meta-command (this is
where the original claim fails); `ai` gives `(true, "")` and
`ai list files` gives `(true, "list files")`, while `air` and `echo ai`
are ordinary commands. -/
theorem C5_is_ai_command_amended (s : List Char) (hnl : '\n' ∉ s) :
    ((is_ai_command s).1 = true ↔
      (s = ['a', 'i'] ∨ (['a', 'i', ' '].isPrefixOf s ∧ 4 ≤ s.length))) ∧
    ((is_ai_command s).1 = true → (is_ai_command s).2 = pyStrip (s.drop 2)) := by
  by_cases hg : s = ['a', 'i'] ∨ ['a', 'i', ' '].isPrefixOf s
  · rcases hg with hg | hg
    · subst hg
      exact ⟨by decide, by decide⟩
    · -- s has prefix "ai "
      obtain ⟨u, rfl⟩ := List.isPrefixOf_iff_prefix.mp hg
      -- s = ['a','i',' '] ++ u
      have hs : ['a', 'i', ' '] ++ u = 'a' :: 'i' :: (' ' :: u) := rfl
      rw [hs] at hnl ⊢
      have hnt : '\n' ∉ (' ' :: u) := by
        intro h; exact hnl (by simp [List.mem_cons] at h ⊢; tauto)
      have hguard : ('a' :: 'i' :: ' ' :: u = ['a', 'i'] ∨
          ['a', 'i', ' '].isPrefixOf ('a' :: 'i' :: ' ' :: u)) := by
        right
        exact List.isPrefixOf_iff_prefix.mpr ⟨u, rfl⟩
      have hw1 : isPySpace ' ' = true := by decide
      have hwsmax : 1 ≤ ((' ' :: u).takeWhile isPySpace).length := by
        rw [List.takeWhile_cons, if_pos hw1]
        simp
      rcases Nat.lt_or_ge u.length 1 with hu | hu
      · -- u = [], s = "ai "
        have : u = [] := List.length_eq_zero.mp (by omega)
        subst this
        refine ⟨?_, ?_⟩
        · constructor
          · intro h; exact absurd h (by decide)
          · rintro (h | ⟨_, hlen⟩)
            · exact absurd h (by decide)
            · simp at hlen
        · intro h; exact absurd h (by decide)
      · -- u nonempty: match succeeds
        have hlen2 : 2 ≤ (' ' :: u).length := by simp; omega
        obtain ⟨j, hj1, hj2, hj3, hj4⟩ :=
          aiTailMatch_no_nl_some (' ' :: u) hnt _ hwsmax hlen2
        have hmatch : ai_pattern_match ('a' :: 'i' :: ' ' :: u) =
            some (some ((' ' :: u).drop j)) := by
          show (match aiTailMatch ((' ' :: u).takeWhile isPySpace).length (' ' :: u) with
            | some g => some (some g)
            | none => if (' ' :: u).isEmpty || (' ' :: u) = ['\n'] then some none else none) =
            some (some ((' ' :: u).drop j))
          rw [hj4]
        have hai : is_ai_command ('a' :: 'i' :: ' ' :: u) =
            (true, pyStrip ((' ' :: u).drop j)) := by
          unfold is_ai_command
          rw [if_neg (by simpa using hguard)]
          rw [hmatch]
          rfl
        refine ⟨?_, ?_⟩
        · rw [hai]
          simp only [true_iff]
          right
          refine ⟨List.isPrefixOf_iff_prefix.mpr ⟨u, rfl⟩, by simp; omega⟩
        · intro _
          rw [hai]
          show pyStrip ((' ' :: u).drop j) = pyStrip (('a' :: 'i' :: ' ' :: u).drop 2)
          have : ('a' :: 'i' :: ' ' :: u).drop 2 = ' ' :: u := rfl
          rw [this]
          exact pyStrip_drop_of_ws _ j (take_of_takeWhile_ws _ j hj2)
  · have hne : is_ai_command s = (false, []) := by
      unfold is_ai_command
      rw [if_pos hg]
    refine ⟨?_, ?_⟩
    · rw [hne]
      simp only [Bool.false_eq_true, false_iff]
      rintro (h | ⟨hp, _⟩)
      · exact hg (Or.inl h)
      · exact hg (Or.inr hp)
    · intro h
      rw [hne] at h
      simp at h


/-- C5 (counterexample): the input `ai ` begins with `ai ` yet
`is_ai_command` rejects it, returning `(false, "")` where the claim
demands `(true, "")`: the regex requires at least one character after
the whitespace run. -/
theorem C5_counterexample :
    ['a', 'i', ' '].isPrefixOf ['a', 'i', ' '] = true ∧
    (is_ai_command ['a', 'i', ' ']).1 = false := by decide

/-- C5 (quartet from the spec, plus the failing input): concrete
classifier behaviour. -/
theorem C5_quartet :
    is_ai_command ("ai".toList) = (true, []) ∧
    is_ai_command ("ai list files".toList) = (true, "list files".toList) ∧
    (is_ai_command ("air".toList)).1 = false ∧
    (is_ai_command ("echo ai".toList)).1 = false ∧
    is_ai_command ("ai ".toList) = (false, []) := by decide

/-- C5 (witness): the amended theorem applied at the concrete newline-free
input `ai hi`. -/
theorem C5_amended_witness :
    '\n' ∉ ("ai hi".toList) ∧ (is_ai_command ("ai hi".toList)).1 = true :=
  ⟨by decide, ((C5_is_ai_command_amended ("ai hi".toList) (by decide)).1).mpr (by decide)⟩

/-! ## UTF-8 codec

Python `bytes.decode('utf-8')` raises `UnicodeDecodeError` on invalid,
truncated, overlong or surrogate sequences; the model returns `none` in
those cases.  `str.encode('utf-8')` is total on valid scalar values. -/

def utf8Cont (b : Nat) : Bool := 0x80 ≤ b && b ≤ 0xbf

def utf8Decode : List Nat → Option (List Char)
  | [] => some []
  | b :: rest =>
    if b < 0x80 then (utf8Decode rest).map (Char.ofNat b :: ·)
    else if 0xc2 ≤ b ∧ b ≤ 0xdf then
      match rest with
      | b2 :: rest2 =>
        if utf8Cont b2 then
          (utf8Decode rest2).map (Char.ofNat ((b - 0xc0) * 0x40 + (b2 - 0x80)) :: ·)
        else none
      | [] => none
    else if 0xe0 ≤ b ∧ b ≤ 0xef then
      match rest with
      | b2 :: b3 :: rest3 =>
        let lo2 := if b = 0xe0 then 0xa0 else 0x80
        let hi2 := if b = 0xed then 0x9f else 0xbf
        if lo2 ≤ b2 ∧ b2 ≤ hi2 ∧ utf8Cont b3 then
          (utf8Decode rest3).map
            (Char.ofNat ((b - 0xe0) * 0x1000 + (b2 - 0x80) * 0x40 + (b3 - 0x80)) :: ·)
        else none
      | _ => none
    else if 0xf0 ≤ b ∧ b ≤ 0xf4 then
      match rest with
      | b2 :: b3 :: b4 :: rest4 =>
        let lo2 := if b = 0xf0 then 0x90 else 0x80
        let hi2 := if b = 0xf4 then 0x8f else 0xbf
        if lo2 ≤ b2 ∧ b2 ≤ hi2 ∧ utf8Cont b3 ∧ utf8Cont b4 then
          (utf8Decode rest4).map
            (Char.ofNat ((b - 0xf0) * 0x40000 + (b2 - 0x80) * 0x1000 +
              (b3 - 0x80) * 0x40 + (b4 - 0x80)) :: ·)
        else none
      | _ => none
    else none

def utf8EncodeChar (c : Char) : List Nat :=
  let n := c.toNat
  if n < 0x80 then [n]
  else if n < 0x800 then [0xc0 + n / 0x40, 0x80 + n % 0x40]
  else if n < 0x10000 then
    [0xe0 + n / 0x1000, 0x80 + (n / 0x40) % 0x40, 0x80 + n % 0x40]
  else
    [0xf0 + n / 0x40000, 0x80 + (n / 0x1000) % 0x40,
     0x80 + (n / 0x40) % 0x40, 0x80 + n % 0x40]

def utf8Encode (s : List Char) : List Nat := (s.map utf8EncodeChar).flatten

/-! ## The extraction regex

Both `execute` and `parse_terminal_output` search for a pattern of the
shape `1;` then `(\w+)` (greedy word run), then `\s+` (greedy with
backtracking), then `(.+?)` (lazy) followed by a zero-width lookahead —
`(?=%)` in `execute`, `(?=%|$)` in `parse_terminal_output`.  The
lookahead is passed as a predicate on the remaining input. -/

def isWordChar (c : Char) : Bool :=
  ('a' ≤ c && c ≤ 'z') || ('A' ≤ c && c ≤ 'Z') || ('0' ≤ c && c ≤ '9') || c = '_'

/-- Lazy `(.+?)` followed by a lookahead: the shortest non-empty
newline-free prefix after which the lookahead holds. -/
def dotLazy : List Char → (List Char → Bool) → Option (List Char)
  | [], _ => none
  | c :: rem, look =>
    if c = '\n' then none
    else if look rem then some [c]
    else (dotLazy rem look).map (c :: ·)

/-- `\s+` of length `k` down to 1 (greedy with backtracking), then the
lazy group. -/
def wsLazyTry (rem : List Char) (look : List Char → Bool) : Nat → Option (List Char)
  | 0 => none
  | k + 1 =>
    match dotLazy (rem.drop (k + 1)) look with
    | some g => some g
    | none => wsLazyTry rem look k

/-- Try the whole pattern anchored at the head of `s`; on success return
the two captured groups. -/
def matchHere (s : List Char) (look : List Char → Bool) :
    Option (List Char × List Char) :=
  match s with
  | '1' :: ';' :: r =>
    let w := r.takeWhile isWordChar
    if w.isEmpty then none
    else
      let rem := r.drop w.length
      (wsLazyTry rem look ((rem.takeWhile isPySpace).length)).map (fun g => (w, g))
  | _ => none

/-- `pattern.search`: leftmost match. -/
def reSearch : List Char → (List Char → Bool) → Option (List Char × List Char)
  | [], _ => none
  | c :: rest, look =>
    match matchHere (c :: rest) look with
    | some m => some m
    | none => reSearch rest look

/-- Lookahead `(?=%)`. -/
def lookPct (suf : List Char) : Bool := suf.head? = some '%'

/-- Lookahead `(?=%|$)` (`$` matches at the end or before one final
newline). -/
def lookPctDollar (suf : List Char) : Bool :=
  suf.head? = some '%' || suf.isEmpty || suf = ['\n']

/-! ## `parse_terminal_output` (lines 225-257)

```python
cleaned_output = clean_terminal_output(raw_output)
start = cleaned_output.find("2;")
end = cleaned_output.find("1;")
input_command = cleaned_output[start:end].split(";")[1].rstrip()
first_token = input_command.split(" ")[0]
output_header = "1;" + first_token        # only printed
pattern = re.compile(r'1;(\w+)\s+(.+?)(?=%|$)')
match = pattern.search(cleaned_output)
if match:
    return (input_command, match.group(2).strip())
else:
    return (input_command, "")
```

The `[1]` indexing raises `IndexError` when the slice contains no `;`,
which the model returns as `Except.error PyErr.indexError`. -/

def parse_cleaned (cleaned : List Char) : Except PyErr (List Char × List Char) := do
  let start := pyFind cleaned ['2', ';']
  let stop := pyFind cleaned ['1', ';']
  let seg := pySlice cleaned start stop
  let ic ← pyGet (pySplitChar seg ';') 1
  let input_command := pyRstrip ic
  let first_token := (pySplitChar input_command ' ').headD []
  let _output_header := '1' :: ';' :: first_token
  match reSearch cleaned lookPctDollar with
  | some (_, g2) => pure (input_command, pyStrip g2)
  | none => pure (input_command, [])

def parse_terminal_output (raw_output : List Char) :
    Except PyErr (List Char × List Char) :=
  parse_cleaned (clean_terminal_output raw_output)

/-! ## `execute` (lines 140-190)

```python
if not command.endswith('\n'):
    command += '\n'
os.write(master_fd, command.encode('utf-8'))
output_buffer = bytearray()
while True:
    ready, _, _ = select.select([master_fd], [], [], timeout)
    if not ready: break
    data = os.read(master_fd, 1024)
    if not data: break
    output_buffer.extend(data)
    if b'%' in data: break
try:
    raw_output = output_buffer.decode('utf-8')
    cleaned_output = clean_terminal_output(raw_output)
    match = re.compile(r'1;(\w+)\s+(.+?)(?=%)').search(cleaned_output)
    if match: return (match.group(1).strip(), match.group(2).strip())
    else: return ('', '')
except UnicodeDecodeError:
    return ""
```

The read loop is driven by a finite script of read results: `none` is a
`select` timeout, `some []` is EOF, `some d` a data chunk.  Note the
decode-error path returns a bare string, not a pair — captured by the
`ExecRes.str` constructor. -/

inductive ExecRes where
  | pair (c o : List Char)
  | str (s : List Char)
  deriving DecidableEq, Repr

def ensureNewline (cmd : List Char) : List Char :=
  if cmd.getLast? = some '\n' then cmd else cmd ++ ['\n']

def execAccum : List (Option (List Nat)) → List Nat
  | [] => []
  | none :: _ => []
  | some [] :: _ => []
  | some d :: rest => d ++ (if 0x25 ∈ d then [] else execAccum rest)

def execute (cmd : List Char) (reads : List (Option (List Nat))) :
    ExecRes × List (List Nat) :=
  let cmdBytes := utf8Encode (ensureNewline cmd)
  let buf := execAccum reads
  match utf8Decode buf with
  | none => (ExecRes.str [], [cmdBytes])
  | some raw =>
    let cleaned := clean_terminal_output raw
    match reSearch cleaned lookPct with
    | some (g1, g2) => (ExecRes.pair (pyStrip g1) (pyStrip g2), [cmdBytes])
    | none => (ExecRes.pair [] [], [cmdBytes])

/-- Indexing an `execute` result with `r[i]`, as `main` does with
`pwd_res[1]` and `last_ret_value[1]`: tuple indexing on the pair,
character indexing on the string (so `''[1]` raises `IndexError`). -/
def execIndex (r : ExecRes) (i : Nat) : Except PyErr (List Char) :=
  match r with
  | ExecRes.pair c o =>
    match i with
    | 0 => Except.ok c
    | 1 => Except.ok o
    | _ => Except.error PyErr.indexError
  | ExecRes.str s =>
    match s.get? i with
    | some ch => Except.ok [ch]
    | none => Except.error PyErr.indexError

theorem pyFind_eq_neg_one {s pat : List Char} (h : containsSub s pat = false) :
    pyFind s pat = -1 := by
  unfold pyFind
  have hn : (List.range (s.length + 1)).find?
      (fun i => pat.isPrefixOf (s.drop i)) = none := by
    rw [List.find?_eq_none]
    intro i hi
    unfold containsSub at h
    rw [List.any_eq_false] at h
    exact h i hi
  rw [hn]

theorem pyFind_cases (s pat : List Char) :
    pyFind s pat = -1 ∨
    ∃ i : Nat, pyFind s pat = (i : Int) ∧ i + pat.length ≤ s.length := by
  unfold pyFind
  rcases hfind : (List.range (s.length + 1)).find?
      (fun i => pat.isPrefixOf (s.drop i)) with _ | i
  · exact Or.inl rfl
  · right
    refine ⟨i, rfl, ?_⟩
    have hp : pat.isPrefixOf (s.drop i) = true := by
      have := List.find?_some hfind
      simpa using this
    have hlen : pat.length ≤ (s.drop i).length :=
      List.IsPrefix.length_le (List.isPrefixOf_iff_prefix.mp hp)
    rw [List.length_drop] at hlen
    have hmem : i ∈ List.range (s.length + 1) := List.mem_of_find?_eq_some hfind
    rw [List.mem_range] at hmem
    omega

theorem pySlice_no_marker_empty (s : List Char)
    (h : containsSub s ['2', ';'] = false) :
    pySlice s (pyFind s ['2', ';']) (pyFind s ['1', ';']) = [] := by
  rw [pyFind_eq_neg_one h]
  unfold pySlice
  dsimp only
  apply List.drop_eq_nil_of_le
  rw [List.length_take]
  rw [if_pos (by norm_num : ((-1 : Int) < 0))]
  rcases pyFind_cases s ['1', ';'] with hf | ⟨i, hf, hb⟩
  · rw [hf]
    rw [if_pos (by norm_num : ((-1 : Int) < 0))]
    omega
  · rw [hf]
    rw [if_neg (by omega : ¬((i : Int) < 0))]
    simp only [List.length_cons, List.length_nil] at hb
    omega

theorem parse_cleaned_no_marker (s : List Char)
    (h : containsSub s ['2', ';'] = false) :
    parse_cleaned s = Except.error PyErr.indexError := by
  have hseg := pySlice_no_marker_empty s h
  unfold parse_cleaned
  dsimp only
  rw [hseg]
  rfl


/-- C1 (code bug): on every cleaned buffer that lacks the pre-command
marker `2;`, `parse_terminal_output` is NOT total: the slice between the
two marker positions is empty, so `split(";")[1]` raises `IndexError`
and the session dies, contradicting the claim (and the documented
intent) that the Segmenter reports a discardable diagnostic and keeps
accumulating.  In particular the markerless input `hello` raises. -/
theorem C1_parse_raises_without_marker :
    parse_terminal_output ("hello".toList) = Except.error PyErr.indexError ∧
    ∀ s : List Char, containsSub s ['2', ';'] = false →
      parse_cleaned s = Except.error PyErr.indexError :=
  ⟨rfl, parse_cleaned_no_marker⟩

/-- C1 (witness): the universal part applied at the concrete markerless
buffer `hello`. -/
theorem C1_witness :
    containsSub ("hello".toList) ['2', ';'] = false ∧
    parse_cleaned ("hello".toList) = Except.error PyErr.indexError :=
  ⟨by decide, C1_parse_raises_without_marker.2 ("hello".toList) (by decide)⟩

/-- C9: on a cleaned buffer of the form `...2;ls...1;ls file1 file2%...`
the Segmenter's boundary extraction returns the command `ls` (the text
between the pre-command marker `2;` and the pre-output marker `1;`) and
the output `file1 file2` (the text after the pre-output marker's echoed
first token, up to the `%` prompt marker). -/
theorem C9_parse_extracts_command_output :
    parse_terminal_output ("a 2;ls 1;ls file1 file2% b".toList) =
      Except.ok ("ls".toList, "file1 file2".toList) := rfl

/-- C6: when the first readiness wait times out with no new data,
`execute` returns the empty pair `('', '')` instead of hanging (the
model is a total function), and no exception is raised — the `Timeout`
condition is non-fatal. -/
theorem C6_execute_timeout_empty_pair (cmd : List Char)
    (rest : List (Option (List Nat))) :
    (execute cmd (none :: rest)).1 = ExecRes.pair [] [] := rfl


/-! ## Events, records and oracles for the session model

`main` (lines 260-356) and `handle_ai_query` (lines 49-138) interact
with the outside world (PTY, real terminal, termios, the completion
service, `input()`).  The model makes these interactions explicit: the
environment `Env` supplies the oracle answers (service replies,
conversation input lines, per-`execute` read scripts, the saved
terminal attributes), and a run produces a trace of events. -/

/-- History records: shell command records produced by the relay
(`{input, output, pwd, last_ret_value}`) and AI records produced by
single-question mode (`{user_input, ai_response}`). -/
inductive Rec where
  | cmd (input output pwd ret : List Char)
  | ai (userInput aiResponse : List Char)
  deriving DecidableEq, Repr

/-- Observable events of a session run.  `diag` is a `print(...)`
diagnostic (also written to the real terminal; kept separate from the
relayed `wStdout` data bytes), `setAttr` is `termios.tcsetattr`,
`cbreakOn` is `tty.setcbreak`, `readLine` is an `input()` call. -/
inductive Ev where
  | rStdin (b : List Nat)
  | rMaster (b : List Nat)
  | wMaster (b : List Nat)
  | wStdout (b : List Nat)
  | diag (s : List Char)
  | setAttr (a : List Nat)
  | cbreakOn
  | readLine (s : List Char)
  deriving DecidableEq, Repr

/-- Chat messages sent to the completion service. -/
inductive Msg where
  | system (c : List Char)
  | user (c : List Char)
  | assistant (c : List Char)
  deriving DecidableEq, Repr

/-- External oracles of a session: saved terminal attributes, the effect
of `tty.setcbreak` on attributes, per-`execute`-call read scripts,
single-question service replies, conversation-mode service replies and
input lines (indexed by conversation invocation), and Python's `str()`
rendering of a history record. -/
structure Env where
  a0 : List Nat
  cbreakOf : List Nat → List Nat
  execReads : Nat → List (Option (List Nat))
  aiSingle : Nat → Except Unit (List Char)
  convSvc : Nat → Nat → Except Unit (List Char)
  convLines : Nat → List (List Char)
  render : Rec → List Char

/-- Context string built from the last 10 history records
(`history[-10:]`, lines 63-65). -/
def contextOf (env : Env) (hist : List Rec) : List Char :=
  "Previous commands and outputs:\n".toList ++
    ((hist.drop (hist.length - 10)).map env.render).flatten

/-! ## `handle_ai_query` (lines 49-138)

Conversation mode (lines 96-138):

```python
print("Entering AI conversation mode (type 'exit' to leave)")
messages = [system, user(context)]
if old_tty:
    termios.tcsetattr(sys.stdin, termios.TCSADRAIN, old_tty)
try:
    while True:
        user_input = input(f"Ask {model}: ")
        if user_input.lower() == 'exit':
            break
        messages.append(user(user_input))
        try:
            ... stream reply ...
            messages.append(assistant(full_response))
        except Exception as e:
            print(f"Error calling OpenAI API: {e}")
            break
finally:
    if old_tty:
        tty.setcbreak(sys.stdin.fileno())
```

The loop is driven by a finite script of input lines; an exhausted
script models `input()` hitting end of input, which raises `EOFError`
through the `finally` block. -/

/-- One conversation-mode read loop.  Returns the final message list, the
events, the next service-call index, and whether the loop was left by
`break` (`true`: exit line or service error) or by the input script
running out (`false`: the next `input()` raises `EOFError`). -/
def conv_loop (svc : Nat → Except Unit (List Char)) :
    Nat → List (List Char) → List Msg → List Msg × List Ev × Nat × Bool
  | k, [], msgs => (msgs, [], k, false)
  | k, l :: rest, msgs =>
    if pyLower l = "exit".toList then (msgs, [Ev.readLine l], k, true)
    else
      let msgs1 := msgs ++ [Msg.user l]
      match svc k with
      | Except.error _ =>
        (msgs1, [Ev.readLine l, Ev.diag ("Error calling OpenAI API: ".toList)],
          k + 1, true)
      | Except.ok r =>
        let (m2, e2, k2, b2) := conv_loop svc (k + 1) rest (msgs1 ++ [Msg.assistant r])
        (m2, Ev.readLine l :: Ev.diag ("AI: ".toList ++ r) :: e2, k2, b2)

/-- `handle_ai_query`: single-question mode for a non-empty prompt
(`if prompt:`), conversation mode otherwise.  Returns the updated
history (or the propagated exception), the next single-question and
conversation indices, and the events. -/
def handle_ai_query (env : Env) (hist : List Rec) (prompt : List Char)
    (oldTty : Option (List Nat)) (aiCnt convCnt : Nat) :
    Except PyErr (List Rec) × Nat × Nat × List Ev :=
  if prompt.isEmpty = false then
    match env.aiSingle aiCnt with
    | Except.error _ =>
      (Except.error PyErr.serviceError, aiCnt + 1, convCnt, [Ev.diag ("AI: ".toList)])
    | Except.ok r =>
      (Except.ok (add_to_history hist (Rec.ai prompt r)), aiCnt + 1, convCnt,
        [Ev.diag ("AI: ".toList ++ r)])
  else
    let introEv := [Ev.diag ("Entering AI conversation mode (type 'exit' to leave)".toList)]
    let attrEv : List Ev := match oldTty with
      | some a => [Ev.setAttr a]
      | none => []
    let msgs0 : List Msg :=
      [Msg.system ("You are a helpful terminal assistant. You have access to the command history and outputs.".toList),
       Msg.user (contextOf env hist)]
    let res := conv_loop (env.convSvc convCnt) 0 (env.convLines convCnt) msgs0
    let restoreEv : List Ev := match oldTty with
      | some _ => [Ev.cbreakOn]
      | none => []
    ((if res.2.2.2 then Except.ok hist else Except.error PyErr.eofError),
      aiCnt, convCnt + 1, introEv ++ attrEv ++ res.2.1 ++ restoreEv)


/-! ## The relay loop `main` (lines 260-356)

The parent branch of `main` saves the terminal attributes, switches to
cbreak mode, runs two bootstrap `execute` calls, and then multiplexes
the user-input and PTY-output channels until EOF or an exception; the
`finally` block restores the saved attributes on every exit path.  The
loop is driven by a finite script of read results; one script entry is
one iteration serving one ready channel. -/

/-- `re.sub(f'^.*LAST_COMMAND.*\n', '', s)` (line 320): without
`re.MULTILINE` the `^` anchors only at the start and `.` cannot cross a
newline, so the substitution removes the first line (including its
newline) exactly when that line contains the command text.  The command
text is interpreted literally (the source interpolates it into the
pattern unescaped, so a command containing regex metacharacters would
behave differently there). -/
def removeEcho (cmd : List Char) (s : List Char) : List Char :=
  let line1 := s.takeWhile (fun c => c ≠ '\n')
  match s.drop line1.length with
  | '\n' :: tail => if containsSub line1 cmd then tail else s
  | _ => s

/-- Mutable state of the relay loop: the keystroke accumulator
`command_buffer`, the output accumulator `output_buffer`,
`last_command`, the global `history`, and the oracle call counters. -/
structure MSt where
  cbuf : List Nat
  obuf : List Nat
  lastCmd : Option (List Char)
  hist : List Rec
  execCnt : Nat
  aiCnt : Nat
  convCnt : Nat
  deriving Repr

/-- Stdin-ready branch (lines 285-302): accumulate, on a line
terminator try to decode (a decode failure is swallowed), clear the
keystroke buffer, and forward the chunk to the PTY verbatim. -/
def stdin_step (st : MSt) (data : List Nat) : MSt × List Ev :=
  let cb := st.cbuf ++ data
  let st1 :=
    if data.contains 10 || data.contains 13 then
      match utf8Decode cb with
      | some sdec =>
        let command := pyStrip sdec
        if command.isEmpty then { st with cbuf := [] }
        else { st with cbuf := [], lastCmd := some command, obuf := [] }
      | none => { st with cbuf := [] }
    else { st with cbuf := cb }
  (st1, [Ev.rStdin data, Ev.wMaster data])

/-- Master-ready branch (lines 304-353): accumulate, try to decode
(failure retains the buffer), on a `%` with a pending command run the
segmentation pipeline — which may raise (`parse_terminal_output`'s
`IndexError`, `''[1]` on an `execute` decode failure, or a propagated
service/EOF error from `handle_ai_query`) — and finally forward the
chunk to the real terminal.  An exception aborts the iteration before
the forwarding write. -/
def master_step (env : Env) (st : MSt) (data : List Nat) :
    Except PyErr MSt × List Ev :=
  let ob := st.obuf ++ data
  match utf8Decode ob with
  | none => (Except.ok { st with obuf := ob }, [Ev.rMaster data, Ev.wStdout data])
  | some output =>
    match st.lastCmd with
    | none => (Except.ok { st with obuf := ob }, [Ev.rMaster data, Ev.wStdout data])
    | some lc =>
      if output.contains '%' = false then
        (Except.ok { st with obuf := ob }, [Ev.rMaster data, Ev.wStdout data])
      else
        let parts := pySplitChar output '%'
        if parts.length < 2 then
          (Except.ok { st with obuf := ob }, [Ev.rMaster data, Ev.wStdout data])
        else
          let cleaned := pyStrip (removeEcho lc (ansiSub (parts.headD [])))
          if cleaned.isEmpty || pyIsspace cleaned then
            (Except.ok { st with obuf := [] }, [Ev.rMaster data, Ev.wStdout data])
          else
            match parse_terminal_output cleaned with
            | Except.error e => (Except.error e, [Ev.rMaster data])
            | Except.ok parsed =>
              let r1 := execute ("echo $?".toList) (env.execReads st.execCnt)
              let r2 := execute ("pwd".toList) (env.execReads (st.execCnt + 1))
              let execEvs := (r1.2 ++ r2.2).map Ev.wMaster
              match execIndex r2.1 1 with
              | Except.error e => (Except.error e, Ev.rMaster data :: execEvs)
              | Except.ok pwdv =>
                match execIndex r1.1 1 with
                | Except.error e => (Except.error e, Ev.rMaster data :: execEvs)
                | Except.ok retv =>
                  let rec0 := Rec.cmd parsed.1 parsed.2 pwdv retv
                  let cls := is_ai_command parsed.1
                  if cls.1 then
                    match handle_ai_query env st.hist cls.2 (some env.a0)
                        st.aiCnt st.convCnt with
                    | (Except.error e, _, _, evs) =>
                      (Except.error e, Ev.rMaster data :: execEvs ++ evs)
                    | (Except.ok hist2, aiC, convC, evs) =>
                      (Except.ok { st with obuf := [], lastCmd := none,
                                           hist := hist2, execCnt := st.execCnt + 2,
                                           aiCnt := aiC, convCnt := convC },
                        Ev.rMaster data :: execEvs ++ evs ++
                          [Ev.diag ("(You are in ai terminal mode)".toList),
                           Ev.wStdout data])
                  else
                    (Except.ok { st with obuf := [], lastCmd := none,
                                         hist := add_to_history st.hist rec0,
                                         execCnt := st.execCnt + 2 },
                      Ev.rMaster data :: execEvs ++
                        [Ev.diag ("Add to history: ".toList),
                         Ev.diag ("(You are in ai terminal mode)".toList),
                         Ev.wStdout data])

/-- One script entry: which channel `select` reported ready and what the
subsequent `os.read` returned (an empty chunk is EOF). -/
inductive SEv where
  | fromStdin (b : List Nat)
  | fromMaster (b : List Nat)
  deriving DecidableEq, Repr

/-- The `while True` loop (lines 282-353).  An empty read breaks the
loop; an uncaught exception aborts it. -/
def main_loop (env : Env) : MSt → List SEv → Except PyErr Unit × List Ev
  | _, [] => (Except.ok (), [])
  | st, SEv.fromStdin d :: rest =>
    if d.isEmpty then (Except.ok (), [Ev.rStdin d])
    else
      let r1 := stdin_step st d
      let r2 := main_loop env r1.1 rest
      (r2.1, r1.2 ++ r2.2)
  | st, SEv.fromMaster d :: rest =>
    if d.isEmpty then (Except.ok (), [Ev.rMaster d])
    else
      match master_step env st d with
      | (Except.ok st1, evs) =>
        let r2 := main_loop env st1 rest
        (r2.1, evs ++ r2.2)
      | (Except.error e, evs) => (Except.error e, evs)

/-- The parent branch of `main` (lines 267-356): save attributes, enter
cbreak mode, run the two bootstrap `execute` calls, run the loop, and —
in the `finally` block, on success and on error alike — restore the
saved attributes. -/
def main_run (env : Env) (script : List SEv) : Except PyErr Unit × List Ev :=
  let b1 := execute ("clear".toList) (env.execReads 0)
  let b2 := execute ("echo 'Welcome to the AI terminal!'".toList) (env.execReads 1)
  let st0 : MSt :=
    { cbuf := [], obuf := [], lastCmd := none, hist := [],
      execCnt := 2, aiCnt := 0, convCnt := 0 }
  let r := main_loop env st0 script
  (r.1, Ev.cbreakOn :: ((b1.2 ++ b2.2).map Ev.wMaster ++ r.2 ++ [Ev.setAttr env.a0]))

/-! ### Trace projections -/

def stdinReadBytes (evs : List Ev) : List Nat :=
  (evs.filterMap (fun e => match e with | Ev.rStdin b => some b | _ => none)).flatten

def masterReadBytes (evs : List Ev) : List Nat :=
  (evs.filterMap (fun e => match e with | Ev.rMaster b => some b | _ => none)).flatten

def masterWriteBytes (evs : List Ev) : List Nat :=
  (evs.filterMap (fun e => match e with | Ev.wMaster b => some b | _ => none)).flatten

def stdoutWriteBytes (evs : List Ev) : List Nat :=
  (evs.filterMap (fun e => match e with | Ev.wStdout b => some b | _ => none)).flatten

/-- Terminal attributes after replaying the trace from `a`. -/
def attrsAfter (env : Env) (a : List Nat) (evs : List Ev) : List Nat :=
  evs.foldl (fun acc e =>
    match e with
    | Ev.setAttr v => v
    | Ev.cbreakOn => env.cbreakOf acc
    | _ => acc) a

/-- Greedy boolean subsequence test (used so that counterexamples can be
checked by evaluation). -/
def isSubchain : List Nat → List Nat → Bool
  | [], _ => true
  | _ :: _, [] => false
  | a :: as, b :: bs => if a = b then isSubchain as bs else isSubchain (a :: as) bs

theorem isSubchain_of_sublist : ∀ {l r : List Nat}, List.Sublist l r → isSubchain l r = true := by
  intro l r h
  induction r generalizing l with
  | nil =>
    cases List.sublist_nil.mp h
    rfl
  | cons b bs ih =>
    cases l with
    | nil => rfl
    | cons a as =>
      by_cases hab : a = b
      · subst hab
        have : List.Sublist as bs := List.cons_sublist_cons.mp h
        simp [isSubchain, ih this]
      · have : List.Sublist (a :: as) bs := by
          cases h with
          | cons _ h' => exact h'
          | cons₂ _ h' => exact absurd rfl hab
        simp [isSubchain, hab, ih this]

def isIoEv : Ev → Bool
  | Ev.rStdin _ => true
  | Ev.rMaster _ => true
  | Ev.wMaster _ => true
  | Ev.wStdout _ => true
  | _ => false

theorem proj_nil_of_no_io {l : List Ev} (h : ∀ e ∈ l, isIoEv e = false) :
    stdinReadBytes l = [] ∧ masterReadBytes l = [] ∧
    masterWriteBytes l = [] ∧ stdoutWriteBytes l = [] := by
  refine ⟨?_, ?_, ?_, ?_⟩ <;>
    · simp only [stdinReadBytes, masterReadBytes, masterWriteBytes, stdoutWriteBytes]
      rw [List.filterMap_eq_nil.mpr ?_]
      · rfl
      · intro e he
        have := h e he
        cases e <;> simp_all [isIoEv]

theorem conv_loop_evs_no_io (svc : Nat → Except Unit (List Char)) :
    ∀ (lines : List (List Char)) (k : Nat) (msgs : List Msg),
      ∀ e ∈ (conv_loop svc k lines msgs).2.1, isIoEv e = false := by
  intro lines
  induction lines with
  | nil => intro k msgs e he; simp [conv_loop] at he
  | cons l rest ih =>
    intro k msgs e he
    unfold conv_loop at he
    by_cases hx : pyLower l = "exit".toList
    · rw [if_pos hx] at he
      simp only [List.mem_singleton] at he
      subst he; rfl
    · rw [if_neg hx] at he
      rcases hsvc : svc k with _ | r
      · rw [hsvc] at he
        simp only [List.mem_cons, List.mem_singleton] at he
        rcases he with rfl | rfl | h
        · rfl
        · rfl
        · simp at h
      · rw [hsvc] at he
        simp only [List.mem_cons] at he
        rcases he with rfl | rfl | h
        · rfl
        · rfl
        · exact ih (k + 1) _ e h

theorem handle_evs_no_io (env : Env) (hist : List Rec) (prompt : List Char)
    (oldTty : Option (List Nat)) (aiCnt convCnt : Nat) :
    ∀ e ∈ (handle_ai_query env hist prompt oldTty aiCnt convCnt).2.2.2,
      isIoEv e = false := by
  intro e he
  unfold handle_ai_query at he
  by_cases hp : prompt.isEmpty = false
  · rw [if_pos hp] at he
    rcases hsvc : env.aiSingle aiCnt with _ | r <;> rw [hsvc] at he <;>
      simp only [List.mem_singleton] at he <;> subst he <;> rfl
  · rw [if_neg hp] at he
    dsimp only at he
    have hmem : e ∈
        ([Ev.diag ("Entering AI conversation mode (type 'exit' to leave)".toList)] ++
          (match oldTty with | some a => [Ev.setAttr a] | none => []) ++
          (conv_loop (env.convSvc convCnt) 0 (env.convLines convCnt)
            [Msg.system ("You are a helpful terminal assistant. You have access to the command history and outputs.".toList),
             Msg.user (contextOf env hist)]).2.1 ++
          (match oldTty with | some _ => [Ev.cbreakOn] | none => [])) := by
      split at he
      · simpa using he
      · simpa using he
    rw [List.append_assoc, List.append_assoc] at hmem
    rcases List.mem_append.mp hmem with h | hmem2
    · simp only [List.mem_singleton] at h
      subst h; rfl
    rcases List.mem_append.mp hmem2 with h | hmem3
    · rcases oldTty with _ | a
      · simp at h
      · simp only [List.mem_singleton] at h
        subst h; rfl
    rcases List.mem_append.mp hmem3 with h | h
    · exact conv_loop_evs_no_io _ _ _ _ e h
    · rcases oldTty with _ | a
      · simp at h
      · simp only [List.mem_singleton] at h
        subst h; rfl

/-- Events that may occur between the read and the forwarding write of
one master-branch iteration: anything except reads and stdout writes. -/
def isMidEv : Ev → Bool
  | Ev.rStdin _ => false
  | Ev.rMaster _ => false
  | Ev.wStdout _ => false
  | _ => true

theorem isMidEv_of_no_io {e : Ev} (h : isIoEv e = false) : isMidEv e = true := by
  cases e <;> simp_all [isIoEv, isMidEv]

theorem mid_proj_nil {l : List Ev} (h : ∀ e ∈ l, isMidEv e = true) :
    stdinReadBytes l = [] ∧ masterReadBytes l = [] ∧ stdoutWriteBytes l = [] := by
  refine ⟨?_, ?_, ?_⟩ <;>
    · simp only [stdinReadBytes, masterReadBytes, stdoutWriteBytes]
      rw [List.filterMap_eq_nil.mpr ?_]
      · rfl
      · intro e he
        have := h e he
        cases e <;> simp_all [isMidEv]

theorem map_wMaster_mid (l : List (List Nat)) :
    ∀ e ∈ l.map Ev.wMaster, isMidEv e = true := by
  intro e he
  rcases List.mem_map.mp he with ⟨b, _, rfl⟩
  rfl

/-- Shape of one master-branch iteration: the read, a middle section
with no reads and no stdout writes, and — iff the iteration did not
raise — the final forwarding write of the same chunk. -/
theorem master_step_shape (env : Env) (st : MSt) (d : List Nat) :
    ∃ mid : List Ev, (∀ e ∈ mid, isMidEv e = true) ∧
      (((master_step env st d).1.isOk = true ∧
          (master_step env st d).2 = Ev.rMaster d :: (mid ++ [Ev.wStdout d])) ∨
        ((master_step env st d).1.isOk = false ∧
          (master_step env st d).2 = Ev.rMaster d :: mid)) := by
  unfold master_step
  dsimp only
  split
  · exact ⟨[], by simp, Or.inl ⟨rfl, rfl⟩⟩
  · split
    · exact ⟨[], by simp, Or.inl ⟨rfl, rfl⟩⟩
    · split
      · exact ⟨[], by simp, Or.inl ⟨rfl, rfl⟩⟩
      · split
        · exact ⟨[], by simp, Or.inl ⟨rfl, rfl⟩⟩
        · split
          · exact ⟨[], by simp, Or.inl ⟨rfl, rfl⟩⟩
          · split
            · exact ⟨[], by simp, Or.inr ⟨rfl, rfl⟩⟩
            · split
              · next heq =>
                exact ⟨_, map_wMaster_mid _, Or.inr ⟨rfl, rfl⟩⟩
              · next pwdv heq =>
                split
                · exact ⟨_, map_wMaster_mid _, Or.inr ⟨rfl, rfl⟩⟩
                · next retv heq2 =>
                  split
                  · -- is_ai branch
                    split
                    · next e aiC convC evs hha =>
                      -- error from handle_ai_query
                      refine ⟨_, ?_, Or.inr ⟨rfl, rfl⟩⟩
                      intro x hx
                      rcases List.mem_append.mp hx with hx | hx
                      · exact map_wMaster_mid _ x hx
                      · have := handle_evs_no_io env st.hist _ (some env.a0) st.aiCnt st.convCnt x (by rw [hha] at *; simpa using hx)
                        exact isMidEv_of_no_io this
                    · next hist2 aiC convC evs hha =>
                      refine ⟨(execute ("echo $?".toList) (env.execReads st.execCnt)).2.map Ev.wMaster ++
                        ((execute ("pwd".toList) (env.execReads (st.execCnt + 1))).2.map Ev.wMaster ++
                          (evs ++ [Ev.diag ("(You are in ai terminal mode)".toList)])), ?_, Or.inl ⟨rfl, ?_⟩⟩
                      · intro x hx
                        rcases List.mem_append.mp hx with hx | hx
                        · exact map_wMaster_mid _ x hx
                        rcases List.mem_append.mp hx with hx | hx
                        · exact map_wMaster_mid _ x hx
                        rcases List.mem_append.mp hx with hx | hx
                        · have := handle_evs_no_io env st.hist _ (some env.a0) st.aiCnt st.convCnt x (by rw [hha] at *; simpa using hx)
                          exact isMidEv_of_no_io this
                        · simp only [List.mem_singleton] at hx
                          subst hx; rfl
                      · simp [List.map_append, List.append_assoc]
                  · -- ordinary command branch
                    refine ⟨(execute ("echo $?".toList) (env.execReads st.execCnt)).2.map Ev.wMaster ++
                      ((execute ("pwd".toList) (env.execReads (st.execCnt + 1))).2.map Ev.wMaster ++
                        [Ev.diag ("Add to history: ".toList),
                         Ev.diag ("(You are in ai terminal mode)".toList)]), ?_, Or.inl ⟨rfl, ?_⟩⟩
                    · intro x hx
                      rcases List.mem_append.mp hx with hx | hx
                      · exact map_wMaster_mid _ x hx
                      rcases List.mem_append.mp hx with hx | hx
                      · exact map_wMaster_mid _ x hx
                      · simp only [List.mem_cons, List.mem_singleton] at hx
                        rcases hx with rfl | rfl | h
                        · rfl
                        · rfl
                        · simp at h
                    · simp [List.map_append, List.append_assoc]

theorem master_step_proj (env : Env) (st : MSt) (d : List Nat) :
    stdinReadBytes (master_step env st d).2 = [] ∧
    masterReadBytes (master_step env st d).2 = d ∧
    ((master_step env st d).1.isOk = true →
      stdoutWriteBytes (master_step env st d).2 = d) := by
  obtain ⟨mid, hmid, hcase⟩ := master_step_shape env st d
  have hnil := mid_proj_nil hmid
  rcases hcase with ⟨hok, hevs⟩ | ⟨hok, hevs⟩
  · have e1 : stdinReadBytes (master_step env st d).2 = stdinReadBytes mid := by
      rw [hevs]; simp [stdinReadBytes, List.filterMap_cons, List.filterMap_append]
    have e2 : masterReadBytes (master_step env st d).2 = d ++ masterReadBytes mid := by
      rw [hevs]; simp [masterReadBytes, List.filterMap_cons, List.filterMap_append]
    have e3 : stdoutWriteBytes (master_step env st d).2 = stdoutWriteBytes mid ++ d := by
      rw [hevs]; simp [stdoutWriteBytes, List.filterMap_cons, List.filterMap_append]
    refine ⟨?_, ?_, fun _ => ?_⟩
    · rw [e1, hnil.1]
    · rw [e2, hnil.2.1]; simp
    · rw [e3, hnil.2.2]; simp
  · have e1 : stdinReadBytes (master_step env st d).2 = stdinReadBytes mid := by
      rw [hevs]; simp [stdinReadBytes, List.filterMap_cons]
    have e2 : masterReadBytes (master_step env st d).2 = d ++ masterReadBytes mid := by
      rw [hevs]; simp [masterReadBytes, List.filterMap_cons]
    refine ⟨?_, ?_, fun hcontra => ?_⟩
    · rw [e1, hnil.1]
    · rw [e2, hnil.2.1]; simp
    · rw [hok] at hcontra
      exact absurd hcontra (by simp)

theorem stdin_step_evs (st : MSt) (d : List Nat) :
    (stdin_step st d).2 = [Ev.rStdin d, Ev.wMaster d] := rfl

theorem main_loop_stdin_sub (env : Env) :
    ∀ (script : List SEv) (st : MSt),
      List.Sublist (stdinReadBytes (main_loop env st script).2)
        (masterWriteBytes (main_loop env st script).2) := by
  intro script
  induction script with
  | nil =>
    intro st
    simp [main_loop, stdinReadBytes, masterWriteBytes]
  | cons se rest ih =>
    intro st
    cases se with
    | fromStdin d =>
      by_cases hd : d.isEmpty
      · have hde : d = [] := by simpa [List.isEmpty_iff] using hd
        subst hde
        simp [main_loop, stdinReadBytes, masterWriteBytes]
      · have hstep : main_loop env st (SEv.fromStdin d :: rest) =
            ((main_loop env (stdin_step st d).1 rest).1,
              [Ev.rStdin d, Ev.wMaster d] ++ (main_loop env (stdin_step st d).1 rest).2) := by
          simp [main_loop, hd, stdin_step_evs]
        rw [hstep]
        have e1 : stdinReadBytes ([Ev.rStdin d, Ev.wMaster d] ++
            (main_loop env (stdin_step st d).1 rest).2) =
            d ++ stdinReadBytes (main_loop env (stdin_step st d).1 rest).2 := by
          simp [stdinReadBytes, List.filterMap_cons, List.filterMap_append]
        have e2 : masterWriteBytes ([Ev.rStdin d, Ev.wMaster d] ++
            (main_loop env (stdin_step st d).1 rest).2) =
            d ++ masterWriteBytes (main_loop env (stdin_step st d).1 rest).2 := by
          simp [masterWriteBytes, List.filterMap_cons, List.filterMap_append]
        rw [e1, e2]
        exact List.Sublist.append_left (ih _) d
    | fromMaster d =>
      by_cases hd : d.isEmpty
      · simp [main_loop, hd, stdinReadBytes, masterWriteBytes]
      · rcases hms : master_step env st d with ⟨res, evs⟩
        have hproj := master_step_proj env st d
        rw [hms] at hproj
        cases res with
        | ok st1 =>
          have hstep : main_loop env st (SEv.fromMaster d :: rest) =
              ((main_loop env st1 rest).1, evs ++ (main_loop env st1 rest).2) := by
            simp [main_loop, hd, hms]
          rw [hstep]
          have e1 : stdinReadBytes (evs ++ (main_loop env st1 rest).2) =
              stdinReadBytes (main_loop env st1 rest).2 := by
            simp only [stdinReadBytes, List.filterMap_append, List.flatten_append]
            have := hproj.1
            simp only [stdinReadBytes] at this
            rw [this]
            rfl
          have e2 : masterWriteBytes (evs ++ (main_loop env st1 rest).2) =
              masterWriteBytes evs ++ masterWriteBytes (main_loop env st1 rest).2 := by
            simp [masterWriteBytes, List.filterMap_append]
          rw [e1, e2]
          exact (ih _).trans (List.sublist_append_right _ _)
        | error e =>
          have hstep : main_loop env st (SEv.fromMaster d :: rest) =
              (Except.error e, evs) := by
            simp [main_loop, hd, hms]
          rw [hstep]
          rw [hproj.1]
          exact List.nil_sublist _

theorem main_loop_master_sub (env : Env) :
    ∀ (script : List SEv) (st : MSt),
      (main_loop env st script).1 = Except.ok () →
      List.Sublist (masterReadBytes (main_loop env st script).2)
        (stdoutWriteBytes (main_loop env st script).2) := by
  intro script
  induction script with
  | nil =>
    intro st _
    simp [main_loop, masterReadBytes, stdoutWriteBytes]
  | cons se rest ih =>
    intro st hok
    cases se with
    | fromStdin d =>
      by_cases hd : d.isEmpty
      · simp [main_loop, hd, masterReadBytes, stdoutWriteBytes]
      · have hstep : main_loop env st (SEv.fromStdin d :: rest) =
            ((main_loop env (stdin_step st d).1 rest).1,
              [Ev.rStdin d, Ev.wMaster d] ++ (main_loop env (stdin_step st d).1 rest).2) := by
          simp [main_loop, hd, stdin_step_evs]
        rw [hstep]
        have hok2 : (main_loop env (stdin_step st d).1 rest).1 = Except.ok () := by
          rw [hstep] at hok
          exact hok
        have e1 : masterReadBytes ([Ev.rStdin d, Ev.wMaster d] ++
            (main_loop env (stdin_step st d).1 rest).2) =
            masterReadBytes (main_loop env (stdin_step st d).1 rest).2 := by
          simp [masterReadBytes, List.filterMap_cons, List.filterMap_append]
        have e2 : stdoutWriteBytes ([Ev.rStdin d, Ev.wMaster d] ++
            (main_loop env (stdin_step st d).1 rest).2) =
            stdoutWriteBytes (main_loop env (stdin_step st d).1 rest).2 := by
          simp [stdoutWriteBytes, List.filterMap_cons, List.filterMap_append]
        rw [e1, e2]
        exact ih _ hok2
    | fromMaster d =>
      by_cases hd : d.isEmpty
      · have hde : d = [] := by simpa [List.isEmpty_iff] using hd
        subst hde
        simp [main_loop, masterReadBytes, stdoutWriteBytes]
      · rcases hms : master_step env st d with ⟨res, evs⟩
        have hproj := master_step_proj env st d
        rw [hms] at hproj
        cases res with
        | ok st1 =>
          have hstep : main_loop env st (SEv.fromMaster d :: rest) =
              ((main_loop env st1 rest).1, evs ++ (main_loop env st1 rest).2) := by
            simp [main_loop, hd, hms]
          rw [hstep]
          have hok2 : (main_loop env st1 rest).1 = Except.ok () := by
            rw [hstep] at hok
            exact hok
          have e1 : masterReadBytes (evs ++ (main_loop env st1 rest).2) =
              d ++ masterReadBytes (main_loop env st1 rest).2 := by
            simp only [masterReadBytes, List.filterMap_append, List.flatten_append]
            have := hproj.2.1
            simp only [masterReadBytes] at this
            rw [this]
          have e2 : stdoutWriteBytes (evs ++ (main_loop env st1 rest).2) =
              d ++ stdoutWriteBytes (main_loop env st1 rest).2 := by
            simp only [stdoutWriteBytes, List.filterMap_append, List.flatten_append]
            have := hproj.2.2 rfl
            simp only [stdoutWriteBytes] at this
            rw [this]
          rw [e1, e2]
          exact List.Sublist.append_left (ih _ hok2) d
        | error e =>
          have hstep : main_loop env st (SEv.fromMaster d :: rest) =
              (Except.error e, evs) := by
            simp [main_loop, hd, hms]
          rw [hstep] at hok
          simp at hok

theorem main_run_trace_shape (env : Env) (script : List SEv) :
    (main_run env script).2 =
      (Ev.cbreakOn ::
        (((execute ("clear".toList) (env.execReads 0)).2 ++
            (execute ("echo 'Welcome to the AI terminal!'".toList) (env.execReads 1)).2).map
              Ev.wMaster ++
          (main_loop env
            { cbuf := [], obuf := [], lastCmd := none, hist := [],
              execCnt := 2, aiCnt := 0, convCnt := 0 } script).2)) ++
        [Ev.setAttr env.a0] := by
  unfold main_run
  dsimp only
  rw [List.cons_append, List.append_assoc]

theorem stdinReadBytes_wrap (X : List Ev) (a : List Nat) :
    stdinReadBytes ((Ev.cbreakOn :: X) ++ [Ev.setAttr a]) = stdinReadBytes X := by
  simp [stdinReadBytes, List.filterMap_cons, List.filterMap_append]

theorem masterReadBytes_wrap (X : List Ev) (a : List Nat) :
    masterReadBytes ((Ev.cbreakOn :: X) ++ [Ev.setAttr a]) = masterReadBytes X := by
  simp [masterReadBytes, List.filterMap_cons, List.filterMap_append]

theorem masterWriteBytes_wrap (X : List Ev) (a : List Nat) :
    masterWriteBytes ((Ev.cbreakOn :: X) ++ [Ev.setAttr a]) = masterWriteBytes X := by
  simp [masterWriteBytes, List.filterMap_cons, List.filterMap_append]

theorem stdoutWriteBytes_wrap (X : List Ev) (a : List Nat) :
    stdoutWriteBytes ((Ev.cbreakOn :: X) ++ [Ev.setAttr a]) = stdoutWriteBytes X := by
  simp [stdoutWriteBytes, List.filterMap_cons, List.filterMap_append]

theorem stdinReadBytes_boot (B : List (List Nat)) (L : List Ev) :
    stdinReadBytes (B.map Ev.wMaster ++ L) = stdinReadBytes L := by
  induction B with
  | nil => simp
  | cons b bs ih =>
    have h1 : stdinReadBytes (Ev.wMaster b :: (bs.map Ev.wMaster ++ L)) =
        stdinReadBytes (bs.map Ev.wMaster ++ L) := by
      simp [stdinReadBytes, List.filterMap_cons]
    simp only [List.map_cons, List.cons_append]
    rw [h1, ih]

theorem masterReadBytes_boot (B : List (List Nat)) (L : List Ev) :
    masterReadBytes (B.map Ev.wMaster ++ L) = masterReadBytes L := by
  induction B with
  | nil => simp
  | cons b bs ih =>
    have h1 : masterReadBytes (Ev.wMaster b :: (bs.map Ev.wMaster ++ L)) =
        masterReadBytes (bs.map Ev.wMaster ++ L) := by
      simp [masterReadBytes, List.filterMap_cons]
    simp only [List.map_cons, List.cons_append]
    rw [h1, ih]

theorem stdoutWriteBytes_boot (B : List (List Nat)) (L : List Ev) :
    stdoutWriteBytes (B.map Ev.wMaster ++ L) = stdoutWriteBytes L := by
  induction B with
  | nil => simp
  | cons b bs ih =>
    have h1 : stdoutWriteBytes (Ev.wMaster b :: (bs.map Ev.wMaster ++ L)) =
        stdoutWriteBytes (bs.map Ev.wMaster ++ L) := by
      simp [stdoutWriteBytes, List.filterMap_cons]
    simp only [List.map_cons, List.cons_append]
    rw [h1, ih]

theorem masterWriteBytes_boot (B : List (List Nat)) (L : List Ev) :
    masterWriteBytes (B.map Ev.wMaster ++ L) = B.flatten ++ masterWriteBytes L := by
  induction B with
  | nil => simp
  | cons b bs ih =>
    have h1 : masterWriteBytes (Ev.wMaster b :: (bs.map Ev.wMaster ++ L)) =
        b ++ masterWriteBytes (bs.map Ev.wMaster ++ L) := by
      simp [masterWriteBytes, List.filterMap_cons]
    simp only [List.map_cons, List.cons_append]
    rw [h1, ih, List.flatten_cons, List.append_assoc]

/-- C3: on every exit path of the session (clean EOF, end of input, or an
uncaught exception from any iteration), the trace ends with exactly one
restoration of the terminal attributes saved before the session started,
and replaying the whole trace over the attribute state returns it to the
saved value — the attributes after the session are identical to those
before it.  (Signals that surface as Python exceptions follow the error
path; the `finally` block is the single restoration site at exit.) -/
theorem C3_terminal_restoration (env : Env) (script : List SEv) :
    (main_run env script).2.getLast? = some (Ev.setAttr env.a0) ∧
    attrsAfter env env.a0 (main_run env script).2 = env.a0 := by
  rw [main_run_trace_shape]
  constructor
  · exact List.getLast?_concat _
  · unfold attrsAfter
    rw [List.foldl_concat]

/-- C4 (amended): bytes read from the user-input side are forwarded to
the PTY byte-identical and in order on every run (the stdin branch
cannot raise between its read and its write); bytes read from the
PTY-output side are forwarded to the real terminal byte-identical and in
order on every run that completes without an uncaught exception.  Both
directions are stated as: the concatenation of the chunks read is a
subsequence of the concatenation of the bytes written on the matching
output channel (the relay also injects its own writes — bootstrap and
side-channel `execute` commands, and diagnostics on the terminal side —
between forwarded chunks). -/
theorem C4_relay_transparency_amended (env : Env) (script : List SEv) :
    List.Sublist (stdinReadBytes (main_run env script).2)
      (masterWriteBytes (main_run env script).2) ∧
    ((main_run env script).1 = Except.ok () →
      List.Sublist (masterReadBytes (main_run env script).2)
        (stdoutWriteBytes (main_run env script).2)) := by
  have hfst : (main_run env script).1 =
      (main_loop env
        { cbuf := [], obuf := [], lastCmd := none, hist := [],
          execCnt := 2, aiCnt := 0, convCnt := 0 } script).1 := by
    unfold main_run
    rfl
  constructor
  · rw [main_run_trace_shape, stdinReadBytes_wrap, masterWriteBytes_wrap,
      stdinReadBytes_boot, masterWriteBytes_boot]
    exact (main_loop_stdin_sub env script _).trans (List.sublist_append_right _ _)
  · intro hok
    rw [main_run_trace_shape, masterReadBytes_wrap, stdoutWriteBytes_wrap,
      masterReadBytes_boot, stdoutWriteBytes_boot]
    rw [hfst] at hok
    exact main_loop_master_sub env script _ hok

/-- A concrete oracle environment for counterexamples and witnesses:
empty saved attributes, identity cbreak effect, silent PTY for
side-channel reads, failing service, no conversation input. -/
def env0 : Env :=
  { a0 := [], cbreakOf := id, execReads := fun _ => [],
    aiSingle := fun _ => Except.error (), convSvc := fun _ _ => Except.error (),
    convLines := fun _ => [], render := fun _ => [] }

/-- C4 (counterexample): after the command `foo` is entered, a PTY chunk
`hello%world` drives the segmentation pipeline into
`parse_terminal_output`'s `IndexError` (the cleaned text has no `2;`
marker), so the loop dies before the forwarding write: the chunk read
from the PTY-output side never reaches the real terminal, violating the
claim that no byte of a source stream is dropped. -/
theorem C4_counterexample :
    (main_run env0 [SEv.fromStdin (utf8Encode ("foo\n".toList)),
      SEv.fromMaster (utf8Encode ("hello%world".toList))]).1 =
        Except.error PyErr.indexError ∧
    ¬ List.Sublist
        (masterReadBytes (main_run env0 [SEv.fromStdin (utf8Encode ("foo\n".toList)),
          SEv.fromMaster (utf8Encode ("hello%world".toList))]).2)
        (stdoutWriteBytes (main_run env0 [SEv.fromStdin (utf8Encode ("foo\n".toList)),
          SEv.fromMaster (utf8Encode ("hello%world".toList))]).2) := by
  constructor
  · rfl
  · intro h
    have := isSubchain_of_sublist h
    rw [show isSubchain
        (masterReadBytes (main_run env0 [SEv.fromStdin (utf8Encode ("foo\n".toList)),
          SEv.fromMaster (utf8Encode ("hello%world".toList))]).2)
        (stdoutWriteBytes (main_run env0 [SEv.fromStdin (utf8Encode ("foo\n".toList)),
          SEv.fromMaster (utf8Encode ("hello%world".toList))]).2) = false from rfl] at this
    exact Bool.false_ne_true this

/-- C4 (witness): the amended theorem applied to a concrete error-free
run (a single keystroke chunk and a clean EOF). -/
theorem C4_witness :
    (main_run env0 [SEv.fromStdin [97], SEv.fromMaster []]).1 = Except.ok () ∧
    List.Sublist
      (masterReadBytes (main_run env0 [SEv.fromStdin [97], SEv.fromMaster []]).2)
      (stdoutWriteBytes (main_run env0 [SEv.fromStdin [97], SEv.fromMaster []]).2) :=
  ⟨rfl, (C4_relay_transparency_amended env0 [SEv.fromStdin [97], SEv.fromMaster []]).2 rfl⟩

/-- C7 (counterexample): on the keystroke path, a chunk that contains a
line terminator but whose accumulated bytes do not decode (the first
byte of a split multi-byte sequence followed by the newline) is NOT
retained: `command_buffer.clear()` runs outside the decode `try`, so the
tail bytes are discarded rather than retried with the next chunk. -/
theorem C7_counterexample :
    utf8Decode (([] : List Nat) ++ [0xc3, 10]) = none ∧
    (stdin_step
      { cbuf := [], obuf := [], lastCmd := none, hist := [],
        execCnt := 0, aiCnt := 0, convCnt := 0 } [0xc3, 10]).1.cbuf = [] :=
  ⟨rfl, rfl⟩

/-- C7 (amended): on the output path a decode failure always retains the
accumulated bytes — the buffer after the step is exactly the old buffer
extended by the chunk, the step is non-fatal, and the chunk is still
forwarded — so decoding is retried once the next chunk is appended; on
the keystroke path bytes are retained only while no line terminator has
arrived (once a chunk contains one, the buffer is cleared even if
decoding failed, as the counterexample shows). -/
theorem C7_decode_retry_amended (env : Env) (st : MSt) (d : List Nat) :
    (utf8Decode (st.obuf ++ d) = none →
      master_step env st d =
        (Except.ok { st with obuf := st.obuf ++ d }, [Ev.rMaster d, Ev.wStdout d])) ∧
    ((d.contains 10 || d.contains 13) = false →
      (stdin_step st d).1.cbuf = st.cbuf ++ d) := by
  constructor
  · intro h
    unfold master_step
    dsimp only
    rw [h]
  · intro h
    unfold stdin_step
    dsimp only
    rw [h]
    simp

/-- C7 (witness): the amended theorem applied to a concrete state whose
output buffer holds the first byte of a split three-byte UTF-8 sequence. -/
theorem C7_witness :
    utf8Decode (([226] : List Nat) ++ [130]) = none ∧
    master_step env0
      { cbuf := [], obuf := [226], lastCmd := none, hist := [],
        execCnt := 0, aiCnt := 0, convCnt := 0 } [130] =
      (Except.ok
        { cbuf := [], obuf := [226, 130], lastCmd := none, hist := [],
          execCnt := 0, aiCnt := 0, convCnt := 0 },
        [Ev.rMaster [130], Ev.wStdout [130]]) :=
  ⟨rfl, (C7_decode_retry_amended env0
    { cbuf := [], obuf := [226], lastCmd := none, hist := [],
      execCnt := 0, aiCnt := 0, convCnt := 0 } [130]).1 rfl⟩

/-- Expected message transcript of an error-free conversation run:
each line is appended as a user message and the service reply as an
assistant message, the service being consulted at successive indices. -/
def convTranscript (svc : Nat → Except Unit (List Char)) :
    Nat → List (List Char) → List Msg
  | _, [] => []
  | k, l :: rest =>
    Msg.user l ::
      match svc k with
      | Except.ok r => Msg.assistant r :: convTranscript svc (k + 1) rest
      | Except.error _ => []

/-- Expected event transcript of an error-free conversation run. -/
def convTranscriptEvs (svc : Nat → Except Unit (List Char)) :
    Nat → List (List Char) → List Ev
  | _, [] => []
  | k, l :: rest =>
    Ev.readLine l ::
      match svc k with
      | Except.ok r => Ev.diag ("AI: ".toList ++ r) :: convTranscriptEvs svc (k + 1) rest
      | Except.error _ => []

/-- C8 (counterexample): the conversation loop is left by the line
`EXIT` — a case variant of `exit`, not the exact string — without the
line being appended to the context and without the service being
consulted, contradicting the claim that only the exact string `exit`
leaves the loop. -/
theorem C8_counterexample :
    pyLower ("EXIT".toList) = "exit".toList ∧
    "EXIT".toList ≠ "exit".toList ∧
    conv_loop (fun _ => Except.ok ("r".toList)) 0 [("EXIT".toList)] [] =
      ([], [Ev.readLine ("EXIT".toList)], 0, true) :=
  ⟨by decide, by decide, rfl⟩

/-- C8 (amended): the conversation read loop is left iff the line read
lowercases to `exit` (case-insensitive comparison via `.lower()`) or the
service call fails.  An exit-line leaves immediately with the context
unchanged; a service error appends the user line, reports the error and
leaves; if no line lowercases to `exit` and the service always succeeds,
every line is appended to the context and sent (one service call per
line, at successive indices) and the loop only ends with the input
script.  In conversation mode with saved attributes present, the last
event on every path is the cbreak restoration. -/
theorem C8_conversation_amended :
    (∀ (svc : Nat → Except Unit (List Char)) (k : Nat) (l : List Char)
        (rest : List (List Char)) (msgs : List Msg),
      pyLower l = "exit".toList →
        conv_loop svc k (l :: rest) msgs = (msgs, [Ev.readLine l], k, true)) ∧
    (∀ (svc : Nat → Except Unit (List Char)) (k : Nat) (l : List Char)
        (rest : List (List Char)) (msgs : List Msg) (e : Unit),
      pyLower l ≠ "exit".toList → svc k = Except.error e →
        conv_loop svc k (l :: rest) msgs =
          (msgs ++ [Msg.user l],
            [Ev.readLine l, Ev.diag ("Error calling OpenAI API: ".toList)], k + 1, true)) ∧
    (∀ (svc : Nat → Except Unit (List Char)) (k : Nat) (lines : List (List Char))
        (msgs : List Msg),
      (∀ l ∈ lines, pyLower l ≠ "exit".toList) →
      (∀ n, (svc n).isOk = true) →
        conv_loop svc k lines msgs =
          (msgs ++ convTranscript svc k lines, convTranscriptEvs svc k lines,
            k + lines.length, false)) ∧
    (∀ (env : Env) (hist : List Rec) (a : List Nat) (aiCnt convCnt : Nat),
      ((handle_ai_query env hist [] (some a) aiCnt convCnt).2.2.2).getLast? =
        some Ev.cbreakOn) := by
  refine ⟨?_, ?_, ?_, ?_⟩
  · intro svc k l rest msgs h
    unfold conv_loop
    rw [if_pos h]
  · intro svc k l rest msgs e hne hsvc
    unfold conv_loop
    rw [if_neg hne, hsvc]
  · intro svc k lines
    induction lines generalizing k with
    | nil =>
      intro msgs _ _
      simp [conv_loop, convTranscript, convTranscriptEvs]
    | cons l rest ih =>
      intro msgs hne hok
      have hl : pyLower l ≠ "exit".toList := hne l (List.mem_cons_self _ _)
      unfold conv_loop
      rw [if_neg hl]
      dsimp only
      rcases hsvc : svc k with e | r
      · have := hok k
        rw [hsvc] at this
        rw [show (Except.error e : Except Unit (List Char)).isOk = false from rfl] at this
        exact absurd this (by simp)
      · have hrest : ∀ x ∈ rest, pyLower x ≠ "exit".toList :=
          fun x hx => hne x (List.mem_cons_of_mem _ hx)
        dsimp only
        rw [ih (k + 1) (msgs ++ [Msg.user l] ++ [Msg.assistant r]) hrest hok]
        simp only [convTranscript, convTranscriptEvs, hsvc, Prod.mk.injEq]
        refine ⟨by simp, trivial, by simp only [List.length_cons]; omega, trivial⟩
  · intro env hist a aiCnt convCnt
    unfold handle_ai_query
    rw [if_neg (by decide)]
    dsimp only
    rw [show ∀ (x y z : List Ev),
        x ++ y ++ z ++ [Ev.cbreakOn] = (x ++ y ++ z) ++ [Ev.cbreakOn] from
      fun x y z => rfl]
    exact List.getLast?_concat _

/-- C8 (witness): the amended theorem's error-free clause applied to a
single non-exit line with an always-succeeding service. -/
theorem C8_witness :
    conv_loop (fun _ => Except.ok ("r".toList)) 0 [("hi".toList)] [] =
      (([] : List Msg) ++ convTranscript (fun _ => Except.ok ("r".toList)) 0 [("hi".toList)],
        convTranscriptEvs (fun _ => Except.ok ("r".toList)) 0 [("hi".toList)],
        0 + 1, false) :=
  C8_conversation_amended.2.2.1 (fun _ => Except.ok ("r".toList)) 0 [("hi".toList)] []
    (by intro l hl; rw [List.mem_singleton] at hl; subst hl; decide)
    (fun _ => rfl)

end AiZsh
